import Mathlib

/-!
Shallow embedding of the book aggregation and encoding engine of
`filter_and_build.py` (balanced scoring mode) and `weakest-book.py`
(win-only scoring mode): the `Book`/`BookPosition`/`BookMove` data
structures, the per-ply scoring loop of `build_book_from_pgn`, the
`Book.normalize` pass, the jitter pass, and `Book.save_polyglot`.

Position hashes come from the external Position Hasher and are modelled
as natural numbers (< 2^64 in the real program); UCI strings, which the
program uses only as dictionary keys, are modelled as abstract natural
number keys.  The only randomness (win-only increments drawn from
`random.randint(4, 6)` and the jitter deltas from `random.randint(0, 3)`)
is injected as explicit arguments, as the design notes require for any
deterministic analysis.
-/

namespace WeakBot

/-- MAX_PLY constant of both scripts. -/
def MAX_PLY : ℕ := 60

/-- MAX_BOOK_WEIGHT constant of both scripts. -/
def MAX_BOOK_WEIGHT : ℕ := 2520

/-!
Model of CPython float (IEEE-754 binary64) arithmetic on nonnegative
values, used by `Book.normalize`, which computes
`int(bm.weight / s * MAX_BOOK_WEIGHT)` with two correctly rounded
binary64 operations (a division and a multiplication) followed by
truncation toward zero.  A nonnegative binary64 value is represented as
a dyadic pair `⟨m, e⟩` standing for `m * 2^e`; each operation rounds its
exact result to a 53-bit significand with round-to-nearest, ties-to-even
(the values arising here are far from binary64 overflow and underflow).
-/

/-- Fuel-driven floor of the base-2 logarithm (`lg2Aux n n` computes it;
structural recursion so the kernel can evaluate it). -/
def lg2Aux : ℕ → ℕ → ℕ
  | 0, _ => 0
  | fuel + 1, n => if n ≤ 1 then 0 else lg2Aux fuel (n / 2) + 1

/-- Floor of the base-2 logarithm of a natural number (0 at 0). -/
def lg2 (n : ℕ) : ℕ := lg2Aux n n

/-- Fuel-driven ceiling of the base-2 logarithm. -/
def clg2Aux : ℕ → ℕ → ℕ
  | 0, _ => 0
  | fuel + 1, n => if n ≤ 1 then 0 else clg2Aux fuel ((n + 1) / 2) + 1

/-- Ceiling of the base-2 logarithm of a natural number (0 at 0). -/
def clg2 (n : ℕ) : ℕ := clg2Aux n n

/-- Floor of the base-2 logarithm of the positive rational `n / d`. -/
def dlog2 (n d : ℕ) : ℤ :=
  if d ≤ n then (lg2 (n / d) : ℤ) else -(clg2 ((d + n - 1) / n) : ℤ)

/-- Round the rational `N / d` to the nearest integer, ties to even. -/
def rneDiv (N d : ℕ) : ℕ :=
  let q := N / d
  let r := N % d
  if 2 * r < d then q else if d < 2 * r then q + 1 else if q % 2 = 0 then q else q + 1

/-- Nonnegative dyadic rational `m * 2^e`, the result of a binary64
operation. -/
structure Dyad where
  m : ℕ
  e : ℤ
  deriving DecidableEq

/-- Binary64 quotient of two naturals: the exact quotient `n / d`
rounded to a 53-bit significand, round-to-nearest ties-to-even.
Models the CPython float division `bm.weight / s` (`d = 0`, which would
raise `ZeroDivisionError` in Python, is mapped to 0 and never reached:
`normalize` divides only when the position sum is positive). -/
def fl64Div (n d : ℕ) : Dyad :=
  if n = 0 ∨ d = 0 then ⟨0, 0⟩
  else
    let e := dlog2 n d
    let k := 52 - e
    let m := if 0 ≤ k then rneDiv (n * 2 ^ k.toNat) d else rneDiv n (d * 2 ^ (-k).toNat)
    ⟨m, e - 52⟩

/-- Binary64 product of a binary64 value and a (small, exactly
representable) natural constant: the exact product rounded to a 53-bit
significand, round-to-nearest ties-to-even.  Models the CPython float
multiplication `... * MAX_BOOK_WEIGHT`. -/
def fl64MulNat (x : Dyad) (c : ℕ) : Dyad :=
  let n2 := x.m * c
  if n2 = 0 then ⟨0, 0⟩
  else
    let t : ℤ := (lg2 n2 : ℤ) - 52
    let m2 := if 0 ≤ t then rneDiv n2 (2 ^ t.toNat) else n2 * 2 ^ (-t).toNat
    ⟨m2, x.e + t⟩

/-- Floor of a nonnegative dyadic value; on nonnegative floats Python
`int()` truncation coincides with the floor. -/
def Dyad.floorVal (x : Dyad) : ℕ :=
  if 0 ≤ x.e then x.m * 2 ^ x.e.toNat else x.m / 2 ^ (-x.e).toNat

/-- Value of the Python expression `int(bm.weight / s * MAX_BOOK_WEIGHT)`
from `Book.normalize`: binary64 division, binary64 multiplication,
truncation toward zero. -/
def pyFloorMul (w s : ℕ) : ℕ :=
  (fl64MulNat (fl64Div w s) MAX_BOOK_WEIGHT).floorVal

/-!
Data model: `Book`, `BookPosition`, `BookMove` from both scripts.
Python dictionaries preserve insertion order and `setdefault` appends a
fresh key at the end, so the two dictionaries are modelled as
insertion-ordered association lists.
-/

/-- Decoded move as the Move Decoder delivers it: `from_square` and
`to_square` in 0..63 and `promotion` the python-chess piece type
(`KNIGHT = 2`, `BISHOP = 3`, `ROOK = 4`, `QUEEN = 5`) or `none`. -/
structure Move where
  from_square : ℕ
  to_square : ℕ
  promotion : Option ℕ
  deriving DecidableEq

/-- BookMove class: `weight` starts at 0, `move` starts at `None`. -/
structure BookMove where
  weight : ℕ
  move : Option Move
  deriving DecidableEq

/-- BookPosition.moves: insertion-ordered dict from UCI key to BookMove. -/
abbrev BookPosition := List (ℕ × BookMove)

/-- Book.positions: insertion-ordered dict from position-hash key to
BookPosition. -/
abbrev Book := List (ℕ × BookPosition)

/-- Game result tag: the `Result` header strings `1-0`, `0-1`,
`1/2-1/2` and anything else (such as `*`). -/
inductive GameResult
  | whiteWin
  | blackWin
  | draw
  | unknown
  deriving DecidableEq

/-- Side to move (`board.turn`, `chess.WHITE` / `chess.BLACK`). -/
inductive Color
  | white
  | black
  deriving DecidableEq

/-- One element of the decoded stream the Move Decoder and Position
Hasher produce for a game: the position hash before the move, the UCI
dictionary key of the move, the move itself, and the side to move. -/
structure PlyObs where
  hash : ℕ
  uci : ℕ
  mv : Move
  turn : Color
  deriving DecidableEq

/-- Decay multiplier: `decay = max(1, (MAX_PLY - ply) // 5)`. -/
def decay (ply : ℕ) : ℕ := max 1 ((MAX_PLY - ply) / 5)

/-- Balanced-mode score increment of `filter_and_build.py`
(`build_book_from_pgn`, the `if result == ...` ladder): white win adds
`6 * decay` to white's move and `1 * decay` to black's, black win
symmetrically, a draw adds `2 * decay`, any other result adds nothing. -/
def balancedIncrement (result : GameResult) (turn : Color) (d : ℕ) : ℕ :=
  match result with
  | .whiteWin => (if turn = .white then 6 else 1) * d
  | .blackWin => (if turn = .black then 6 else 1) * d
  | .draw => 2 * d
  | .unknown => 0

/-- Win-only score increment of `weakest-book.py`: only when the side to
move equals the winning side of a decisive game does the move gain
`r * decay`, where `r` is the injected value of `random.randint(4, 6)`;
every other observed move gains nothing. -/
def winOnlyIncrement (result : GameResult) (turn : Color) (r d : ℕ) : ℕ :=
  if (result = .whiteWin ∧ turn = .white) ∨ (result = .blackWin ∧ turn = .black)
    then r * d else 0

/-- One scoring step inside a position: `bm = pos.get_move(move.uci())`
(a `setdefault` that appends a fresh `BookMove` when the key is new),
then `bm.move = move`, then `bm.weight += incr`. -/
def scoreMove (pos : BookPosition) (uci : ℕ) (mv : Move) (incr : ℕ) : BookPosition :=
  match pos with
  | [] => [(uci, ⟨incr, some mv⟩)]
  | (u, bm) :: rest =>
    if u = uci then (u, ⟨bm.weight + incr, some mv⟩) :: rest
    else (u, bm) :: scoreMove rest uci mv incr

/-- One scoring step on the book: `pos = book.get_position(k)` (again a
`setdefault`) followed by `scoreMove` inside that position. -/
def scoreObs (b : Book) (h uci : ℕ) (mv : Move) (incr : ℕ) : Book :=
  match b with
  | [] => [(h, scoreMove [] uci mv incr)]
  | (k, pos) :: rest =>
    if k = h then (k, scoreMove pos uci mv incr) :: rest
    else (k, pos) :: scoreObs rest h uci mv incr

/-- Per-game scoring loop of `filter_and_build.py`
(`for ply, move in enumerate(game.mainline_moves())`): the list is the
decoded stream of the game (the decoder stops it early at the first
illegal move, matching the `try`/`except` break), `ply` the enumerate
counter, and `if ply >= MAX_PLY: break` ends the loop. -/
def scoreGameBalanced (result : GameResult) : Book → ℕ → List PlyObs → Book
  | b, _, [] => b
  | b, ply, o :: rest =>
    if MAX_PLY ≤ ply then b
    else scoreGameBalanced result
      (scoreObs b o.hash o.uci o.mv (balancedIncrement result o.turn (decay ply)))
      (ply + 1) rest

/-- Per-game scoring loop of `weakest-book.py`; `rs ply` injects the
`random.randint(4, 6)` draw of that ply. -/
def scoreGameWinOnly (result : GameResult) (rs : ℕ → ℕ) : Book → ℕ → List PlyObs → Book
  | b, _, [] => b
  | b, ply, o :: rest =>
    if MAX_PLY ≤ ply then b
    else scoreGameWinOnly result rs
      (scoreObs b o.hash o.uci o.mv (winOnlyIncrement result o.turn (rs ply) (decay ply)))
      (ply + 1) rest

/-- One game record as ingestion sees it: whether the variant tag
matches the configured target (`VARIANT in variant_tag`), the result
header, and the decoded ply stream. -/
structure GameRec where
  variantOk : Bool
  result : GameResult
  plies : List PlyObs

/-- Ingestion of one game in balanced mode: a variant mismatch skips the
game entirely (`continue`), otherwise the scoring loop runs from ply 0. -/
def ingestBalanced (b : Book) (g : GameRec) : Book :=
  if g.variantOk then scoreGameBalanced g.result b 0 g.plies else b

/-- Ingestion pass of `build_book_from_pgn` over the whole corpus,
starting from the empty book. -/
def buildBookBalanced (games : List GameRec) : Book :=
  games.foldl ingestBalanced []

/-- Sum `s = sum(bm.weight for bm in pos.moves.values())`. -/
def posSum (pos : BookPosition) : ℕ := (pos.map fun p => p.2.weight).sum

/-- Per-position body of `Book.normalize`: positions with `s <= 0` are
skipped (`continue`), otherwise every move weight is rewritten to
`max(1, int(bm.weight / s * MAX_BOOK_WEIGHT))`. -/
def normalizePos (pos : BookPosition) : BookPosition :=
  let s := posSum pos
  if s ≤ 0 then pos
  else pos.map fun p => (p.1, ⟨max 1 (pyFloorMul p.2.weight s), p.2.move⟩)

/-- Book.normalize of both scripts. -/
def Book.normalize (b : Book) : Book :=
  b.map fun kp => (kp.1, normalizePos kp.2)

/-- Jitter of one position, from the loop after `book.normalize()` in
`build_book_from_pgn`: every move gets
`bm.weight = min(MAX_BOOK_WEIGHT, bm.weight + random.randint(0, 3))`;
`δ k u` injects the random delta drawn for move `u` of position `k`. -/
def jitterPos (δ : ℕ → ℕ → ℕ) (k : ℕ) (pos : BookPosition) : BookPosition :=
  pos.map fun p => (p.1, ⟨min MAX_BOOK_WEIGHT (p.2.weight + δ k p.1), p.2.move⟩)

/-- Jitter pass over the whole book. -/
def jitter (δ : ℕ → ℕ → ℕ) (b : Book) : Book :=
  b.map fun kp => (kp.1, jitterPos δ kp.1 kp.2)

/-!
Binary encoding, `Book.save_polyglot`.
-/

/-- Big-endian byte list of a natural number, `n` bytes wide:
`value.to_bytes(n, "big")` (every value encoded by the program fits its
width, so the truncating `% 256` is inert). -/
def beBytes : ℕ → ℕ → List ℕ
  | 0, _ => []
  | n + 1, a => (a / 256 ^ n) % 256 :: beBytes n a

/-- Move field: `mi = m.to_square + (m.from_square << 6)`, plus
`(m.promotion - 1) << 12` when a promotion piece is present (the Python
truthiness test `if m.promotion:` is false exactly on `None`, since
piece types are 1..6). -/
def moveInt (m : Move) : ℕ :=
  m.to_square + (m.from_square <<< 6) +
    (match m.promotion with
     | some p => (p - 1) <<< 12
     | none => 0)

/-- One 16-byte entry: `zbytes + mbytes + wbytes + lbytes` with the
weight clamped by `min(MAX_BOOK_WEIGHT, bm.weight)` and the learn field
constantly zero. -/
def entryBytes (h : ℕ) (m : Move) (w : ℕ) : List ℕ :=
  beBytes 8 h ++ beBytes 2 (moveInt m) ++ beBytes 2 (min MAX_BOOK_WEIGHT w) ++ beBytes 4 0

/-- Entries contributed by one position: the loop body of
`save_polyglot` with its filter
`if bm.weight <= 0 or bm.move is None: continue`. -/
def posEntries (h : ℕ) (pos : BookPosition) : List (List ℕ) :=
  pos.filterMap fun p =>
    if p.2.weight ≤ 0 then none
    else
      match p.2.move with
      | none => none
      | some m => some (entryBytes h m p.2.weight)

/-- All entries of the book, in dictionary iteration order, before the
sort. -/
def allEntries (b : Book) : List (List ℕ) :=
  (b.map fun kp => posEntries kp.1 kp.2).flatten

/-- Strict lexicographic order on byte strings, Python `bytes` `<`. -/
def bytesLT : List ℕ → List ℕ → Bool
  | _, [] => false
  | [], _ :: _ => true
  | a :: as, b :: bs => a < b || (a == b && bytesLT as bs)

/-- Lexicographic order on byte strings, Python `bytes` `<=`. -/
def bytesLE (x y : List ℕ) : Bool := bytesLT x y || x == y

/-- Comparison the sort of `save_polyglot` uses:
`key=lambda e: (e[:8], e[10:12])`, i.e. the Python tuple order on the
hash bytes and the bytes at offsets 10-11 (the weight field). -/
def entryLE (e1 e2 : List ℕ) : Bool :=
  bytesLT (e1.take 8) (e2.take 8) ||
    (e1.take 8 == e2.take 8 && bytesLE ((e1.drop 10).take 2) ((e2.drop 10).take 2))

/-- The sort comparison as a relation. -/
def entryRel : List ℕ → List ℕ → Prop := fun e1 e2 => entryLE e1 e2 = true

instance : DecidableRel entryRel := fun a b => by
  unfold entryRel; infer_instance

/-- Book.save_polyglot: collect the entries of every position, sort them
by `(e[:8], e[10:12])` (a stable sort, like Python's), and return the
sorted entry sequence, which the script then concatenates into the
output file. -/
def Book.save_polyglot (b : Book) : List (List ℕ) :=
  List.insertionSort entryRel (allEntries b)

/-!
Decoding helpers for stating properties of the emitted bytes.
-/

/-- Big-endian value of a byte list. -/
def beVal : List ℕ → ℕ
  | [] => 0
  | b :: bs => b * 256 ^ bs.length + beVal bs

/-- The 8-byte big-endian position-hash field of an entry (bytes 0-7). -/
def hashVal (e : List ℕ) : ℕ := beVal (e.take 8)

/-- The 2-byte big-endian move field of an entry (bytes 8-9). -/
def moveVal (e : List ℕ) : ℕ := beVal ((e.drop 8).take 2)

/-- The 2-byte big-endian weight field of an entry (bytes 10-11). -/
def weightVal (e : List ℕ) : ℕ := beVal ((e.drop 10).take 2)

/-- The 4-byte reserved learn field of an entry (bytes 12-15). -/
def learnVal (e : List ℕ) : ℕ := beVal (e.drop 12)

/-- Lookup of a position by hash key (first occurrence). -/
def lookupPos : Book → ℕ → Option BookPosition
  | [], _ => none
  | (k, pos) :: rest, h => if k = h then some pos else lookupPos rest h

/-- Lookup of a move stat by UCI key (first occurrence). -/
def lookupBM : BookPosition → ℕ → Option BookMove
  | [], _ => none
  | (u, bm) :: rest, uci => if u = uci then some bm else lookupBM rest uci

/-- Stat stored in the book for one (hash, UCI) pair, when present. -/
def findStat (b : Book) (h uci : ℕ) : Option BookMove :=
  (lookupPos b h).bind fun pos => lookupBM pos uci

/-- Accumulated score of one (hash, UCI) pair, 0 when absent. -/
def lookupWeight (b : Book) (h uci : ℕ) : ℕ :=
  ((findStat b h uci).map BookMove.weight).getD 0

/-- Whether the book holds a stat for one (hash, UCI) pair. -/
def hasStat (b : Book) (h uci : ℕ) : Bool :=
  (findStat b h uci).isSome

/-!
Order lemmas for the sort comparison of `save_polyglot`.
-/

theorem bytesLT_trans {x y z : List ℕ} (h1 : bytesLT x y = true) (h2 : bytesLT y z = true) :
    bytesLT x z = true := by
  induction x generalizing y z with
  | nil =>
    cases z with
    | nil =>
      cases y with
      | nil => simpa using h1
      | cons b bs => simp [bytesLT] at h2
    | cons c cs => rfl
  | cons a as ih =>
    cases y with
    | nil => simp [bytesLT] at h1
    | cons b bs =>
      cases z with
      | nil => simp [bytesLT] at h2
      | cons c cs =>
        simp only [bytesLT, Bool.or_eq_true, Bool.and_eq_true, decide_eq_true_eq,
          beq_iff_eq] at h1 h2 ⊢
        rcases h1 with h1 | ⟨rfl, h1⟩
        · rcases h2 with h2 | ⟨rfl, h2⟩
          · exact Or.inl (Nat.lt_trans h1 h2)
          · exact Or.inl h1
        · rcases h2 with h2 | ⟨rfl, h2⟩
          · exact Or.inl h2
          · exact Or.inr ⟨rfl, ih h1 h2⟩

theorem bytesLT_trichotomy (x y : List ℕ) :
    bytesLT x y = true ∨ x = y ∨ bytesLT y x = true := by
  induction x generalizing y with
  | nil =>
    cases y with
    | nil => exact Or.inr (Or.inl rfl)
    | cons b bs => exact Or.inl rfl
  | cons a as ih =>
    cases y with
    | nil => exact Or.inr (Or.inr rfl)
    | cons b bs =>
      rcases Nat.lt_trichotomy a b with h | rfl | h
      · left
        simp [bytesLT, h]
      · rcases ih bs with h' | rfl | h'
        · left
          simp [bytesLT, h']
        · exact Or.inr (Or.inl rfl)
        · right; right
          simp [bytesLT, h']
      · right; right
        simp [bytesLT, h]

theorem bytesLE_iff {x y : List ℕ} :
    bytesLE x y = true ↔ bytesLT x y = true ∨ x = y := by
  simp [bytesLE, Bool.or_eq_true, beq_iff_eq]

theorem entryRel_iff {e1 e2 : List ℕ} :
    entryRel e1 e2 ↔
      bytesLT (e1.take 8) (e2.take 8) = true ∨
        (e1.take 8 = e2.take 8 ∧
          (bytesLT ((e1.drop 10).take 2) ((e2.drop 10).take 2) = true ∨
            (e1.drop 10).take 2 = (e2.drop 10).take 2)) := by
  simp [entryRel, entryLE, bytesLE, Bool.or_eq_true, Bool.and_eq_true, beq_iff_eq]

instance : IsTrans (List ℕ) entryRel where
  trans a b c hab hbc := by
    rw [entryRel_iff] at hab hbc ⊢
    rcases hab with hab | ⟨hab, hab'⟩
    · rcases hbc with hbc | ⟨hbc, _⟩
      · exact Or.inl (bytesLT_trans hab hbc)
      · exact Or.inl (hbc ▸ hab)
    · rcases hbc with hbc | ⟨hbc, hbc'⟩
      · exact Or.inl (hab ▸ hbc)
      · refine Or.inr ⟨hab.trans hbc, ?_⟩
        rcases hab' with hab' | hab'
        · rcases hbc' with hbc' | hbc'
          · exact Or.inl (bytesLT_trans hab' hbc')
          · exact Or.inl (hbc' ▸ hab')
        · rcases hbc' with hbc' | hbc'
          · exact Or.inl (hab' ▸ hbc')
          · exact Or.inr (hab'.trans hbc')

instance : IsTotal (List ℕ) entryRel where
  total a b := by
    rw [entryRel_iff, entryRel_iff]
    rcases bytesLT_trichotomy (a.take 8) (b.take 8) with h | h | h
    · exact Or.inl (Or.inl h)
    · rcases bytesLT_trichotomy ((a.drop 10).take 2) ((b.drop 10).take 2) with h' | h' | h'
      · exact Or.inl (Or.inr ⟨h, Or.inl h'⟩)
      · exact Or.inl (Or.inr ⟨h, Or.inr h'⟩)
      · exact Or.inr (Or.inr ⟨h.symm, Or.inl h'⟩)
    · exact Or.inr (Or.inl h)

/-!
Numeric reading of the big-endian byte encodings.
-/

theorem mod_pow_succ (a n : ℕ) :
    a % 256 ^ (n + 1) = (a / 256 ^ n % 256) * 256 ^ n + a % 256 ^ n := by
  rw [pow_succ, Nat.mod_mul]; ring

theorem digit_lt_iff {P q1 r1 q2 r2 : ℕ} (h1 : r1 < P) (h2 : r2 < P) :
    q1 * P + r1 < q2 * P + r2 ↔ q1 < q2 ∨ (q1 = q2 ∧ r1 < r2) := by
  constructor
  · intro h
    rcases Nat.lt_trichotomy q1 q2 with hq | hq | hq
    · exact Or.inl hq
    · subst hq
      exact Or.inr ⟨rfl, by omega⟩
    · exfalso
      have h3 : (q2 + 1) * P ≤ q1 * P := Nat.mul_le_mul_right P hq
      rw [Nat.succ_mul] at h3
      omega
  · rintro (hq | ⟨rfl, hr⟩)
    · have h3 : (q1 + 1) * P ≤ q2 * P := Nat.mul_le_mul_right P hq
      rw [Nat.succ_mul] at h3
      omega
    · omega

theorem digit_eq_iff {P q1 r1 q2 r2 : ℕ} (h1 : r1 < P) (h2 : r2 < P) :
    q1 * P + r1 = q2 * P + r2 ↔ q1 = q2 ∧ r1 = r2 := by
  constructor
  · intro h
    rcases Nat.lt_trichotomy q1 q2 with hq | hq | hq
    · have := (digit_lt_iff h1 h2).mpr (Or.inl hq); omega
    · subst hq
      exact ⟨rfl, by omega⟩
    · have := (digit_lt_iff h2 h1).mpr (Or.inl hq); omega
  · rintro ⟨rfl, rfl⟩; rfl

theorem beBytes_length (n a : ℕ) : (beBytes n a).length = n := by
  induction n generalizing a with
  | zero => rfl
  | succ n ih => simp [beBytes, ih]

theorem bytesLT_beBytes (n a b : ℕ) :
    bytesLT (beBytes n a) (beBytes n b) = true ↔ a % 256 ^ n < b % 256 ^ n := by
  induction n with
  | zero => simp [beBytes, bytesLT, Nat.mod_one]
  | succ n ih =>
    have hP : 0 < 256 ^ n := Nat.pos_pow_of_pos n (by norm_num)
    simp only [beBytes, bytesLT, Bool.or_eq_true, Bool.and_eq_true, decide_eq_true_eq,
      beq_iff_eq, ih]
    rw [mod_pow_succ a n, mod_pow_succ b n,
      digit_lt_iff (Nat.mod_lt a hP) (Nat.mod_lt b hP)]

theorem beBytes_eq_iff (n a b : ℕ) :
    beBytes n a = beBytes n b ↔ a % 256 ^ n = b % 256 ^ n := by
  induction n with
  | zero => simp [beBytes, Nat.mod_one]
  | succ n ih =>
    have hP : 0 < 256 ^ n := Nat.pos_pow_of_pos n (by norm_num)
    simp only [beBytes, List.cons.injEq, ih]
    rw [mod_pow_succ a n, mod_pow_succ b n,
      digit_eq_iff (Nat.mod_lt a hP) (Nat.mod_lt b hP)]

theorem beVal_beBytes (n a : ℕ) : beVal (beBytes n a) = a % 256 ^ n := by
  induction n with
  | zero => simp [beBytes, beVal, Nat.mod_one]
  | succ n ih =>
    simp only [beBytes, beVal, beBytes_length, ih]
    rw [mod_pow_succ a n]

/-!
Slices of one encoded entry.
-/

theorem entry_take8 (h : ℕ) (m : Move) (w : ℕ) :
    (entryBytes h m w).take 8 = beBytes 8 h := rfl

theorem entry_moveSlice (h : ℕ) (m : Move) (w : ℕ) :
    ((entryBytes h m w).drop 8).take 2 = beBytes 2 (moveInt m) := rfl

theorem entry_weightSlice (h : ℕ) (m : Move) (w : ℕ) :
    ((entryBytes h m w).drop 10).take 2 = beBytes 2 (min MAX_BOOK_WEIGHT w) := rfl

theorem entry_learnSlice (h : ℕ) (m : Move) (w : ℕ) :
    (entryBytes h m w).drop 12 = [0, 0, 0, 0] := rfl

theorem entry_length (h : ℕ) (m : Move) (w : ℕ) :
    (entryBytes h m w).length = 16 := by
  simp [entryBytes, beBytes_length]

theorem hashVal_entryBytes (h : ℕ) (m : Move) (w : ℕ) :
    hashVal (entryBytes h m w) = h % 256 ^ 8 := by
  rw [hashVal, entry_take8, beVal_beBytes]

theorem moveVal_entryBytes (h : ℕ) (m : Move) (w : ℕ) (hm : moveInt m < 256 ^ 2) :
    moveVal (entryBytes h m w) = moveInt m := by
  rw [moveVal, entry_moveSlice, beVal_beBytes]
  exact Nat.mod_eq_of_lt hm

theorem weightVal_entryBytes (h : ℕ) (m : Move) (w : ℕ) :
    weightVal (entryBytes h m w) = min MAX_BOOK_WEIGHT w := by
  rw [weightVal, entry_weightSlice, beVal_beBytes]
  have h1 : min MAX_BOOK_WEIGHT w ≤ MAX_BOOK_WEIGHT := min_le_left _ _
  have h2 : MAX_BOOK_WEIGHT = 2520 := rfl
  exact Nat.mod_eq_of_lt (by omega)

theorem learnVal_entryBytes (h : ℕ) (m : Move) (w : ℕ) :
    learnVal (entryBytes h m w) = 0 := rfl

/-!
Shape and sortedness of the encoder output.
-/

theorem mem_allEntries {b : Book} {e : List ℕ} (he : e ∈ allEntries b) :
    ∃ k m w, 0 < w ∧ e = entryBytes k m w := by
  rcases List.mem_flatten.mp he with ⟨l, hl, hel⟩
  rcases List.mem_map.mp hl with ⟨kp, hkp, rfl⟩
  rcases List.mem_filterMap.mp hel with ⟨p, hp, hpe⟩
  by_cases hw : p.2.weight ≤ 0
  · rw [if_pos hw] at hpe
    cases hpe
  · rw [if_neg hw] at hpe
    cases hmv : p.2.move with
    | none =>
      rw [hmv] at hpe
      cases hpe
    | some m =>
      rw [hmv] at hpe
      exact ⟨kp.1, m, p.2.weight, by omega, (Option.some.inj hpe).symm⟩

theorem mem_save_polyglot {b : Book} {e : List ℕ} :
    e ∈ Book.save_polyglot b ↔ e ∈ allEntries b := by
  simp [Book.save_polyglot]

theorem save_polyglot_sorted (b : Book) :
    List.Sorted entryRel (Book.save_polyglot b) :=
  List.sorted_insertionSort entryRel (allEntries b)

/-!
Concrete fixtures used by the claim theorems below.
-/

/-- Move with `from_square = 7`, `to_square = 52`; `moveInt = 500`. -/
def sampleMoveA : Move := ⟨7, 52, none⟩

/-- Move with `from_square = 1`, `to_square = 36`; `moveInt = 100`. -/
def sampleMoveB : Move := ⟨1, 36, none⟩

/-- Book reached by ingesting two one-move white-win games that share
position hash 5: move key 0 (`sampleMoveA`) and move key 1
(`sampleMoveB`) both accumulate `6 * decay 0 = 72`. -/
def clashBook : Book :=
  scoreGameBalanced .whiteWin
    (scoreGameBalanced .whiteWin [] 0 [⟨5, 0, sampleMoveA, .white⟩])
    0 [⟨5, 1, sampleMoveB, .white⟩]

/-- Output of the full pipeline on `clashBook` with injected jitter
deltas 0 for move key 0 and 3 for move key 1 (both inside the program's
`random.randint(0, 3)` range): both moves normalize to 1260, jitter
makes the weights 1260 and 1263. -/
def clashOut : List (List ℕ) :=
  Book.save_polyglot (jitter (fun _ u => if u = 1 then 3 else 0) clashBook.normalize)

/-- Two-move book used to instantiate sortedness and weight-bound
theorems on a concrete input. -/
def smallBook : Book :=
  [(1, [(0, ⟨5, some sampleMoveA⟩), (1, ⟨9, some sampleMoveB⟩)])]

/-- C1, counterexample.  The sort key of `save_polyglot` is
`(e[:8], e[10:12])`: hash bytes then WEIGHT bytes (offsets 10-11), not
the move bytes (offsets 8-9).  On `clashOut` the two adjacent entries
share their hash, yet the move field decreases from 500 to 100 (the
entries were ordered by their weights 1260 < 1263), so the claimed
move-field tiebreak is violated. -/
theorem save_polyglot_move_sort_counterexample :
    clashOut.length = 2 ∧
      hashVal (clashOut.getD 0 []) = hashVal (clashOut.getD 1 []) ∧
      moveVal (clashOut.getD 0 []) = 500 ∧
      moveVal (clashOut.getD 1 []) = 100 ∧
      ¬ moveVal (clashOut.getD 0 []) ≤ moveVal (clashOut.getD 1 []) := by
  decide

/-- C1, amended.  In the encoded output, entries are sorted ascending by
the 8-byte big-endian position-hash field and, for entries with equal
hash, ascending by the 2-byte big-endian WEIGHT field (bytes 10-11): for
every adjacent pair of entries, `hash[i] < hash[i+1]`, or
`hash[i] = hash[i+1]` and `weight[i] ≤ weight[i+1]`. -/
theorem save_polyglot_sorted_by_hash_then_weight (b : Book) (i : ℕ)
    (hi : i + 1 < (Book.save_polyglot b).length) :
    hashVal ((Book.save_polyglot b).get ⟨i, Nat.lt_of_succ_lt hi⟩) <
        hashVal ((Book.save_polyglot b).get ⟨i + 1, hi⟩) ∨
      (hashVal ((Book.save_polyglot b).get ⟨i, Nat.lt_of_succ_lt hi⟩) =
          hashVal ((Book.save_polyglot b).get ⟨i + 1, hi⟩) ∧
        weightVal ((Book.save_polyglot b).get ⟨i, Nat.lt_of_succ_lt hi⟩) ≤
          weightVal ((Book.save_polyglot b).get ⟨i + 1, hi⟩)) := by
  have hrel : entryRel ((Book.save_polyglot b).get ⟨i, Nat.lt_of_succ_lt hi⟩)
      ((Book.save_polyglot b).get ⟨i + 1, hi⟩) :=
    (save_polyglot_sorted b).rel_get_of_lt (Fin.mk_lt_mk.mpr (Nat.lt_succ_self i))
  obtain ⟨k1, m1, w1, _, he1⟩ :=
    mem_allEntries (mem_save_polyglot.mp (List.get_mem _ i (Nat.lt_of_succ_lt hi)))
  obtain ⟨k2, m2, w2, _, he2⟩ :=
    mem_allEntries (mem_save_polyglot.mp (List.get_mem _ (i + 1) hi))
  rw [he1, he2] at hrel ⊢
  rw [entryRel_iff, entry_take8, entry_take8, entry_weightSlice, entry_weightSlice] at hrel
  rw [hashVal_entryBytes, hashVal_entryBytes, weightVal_entryBytes, weightVal_entryBytes]
  have hmax : MAX_BOOK_WEIGHT = 2520 := rfl
  have hb1 : min MAX_BOOK_WEIGHT w1 < 256 ^ 2 := by
    have := min_le_left MAX_BOOK_WEIGHT w1
    omega
  have hb2 : min MAX_BOOK_WEIGHT w2 < 256 ^ 2 := by
    have := min_le_left MAX_BOOK_WEIGHT w2
    omega
  rcases hrel with hlt | ⟨heq, hw⟩
  · exact Or.inl ((bytesLT_beBytes 8 k1 k2).mp hlt)
  · refine Or.inr ⟨(beBytes_eq_iff 8 k1 k2).mp heq, ?_⟩
    rcases hw with hw | hw
    · have h3 := (bytesLT_beBytes 2 _ _).mp hw
      rw [Nat.mod_eq_of_lt hb1, Nat.mod_eq_of_lt hb2] at h3
      omega
    · have h3 := (beBytes_eq_iff 2 _ _).mp hw
      rw [Nat.mod_eq_of_lt hb1, Nat.mod_eq_of_lt hb2] at h3
      omega

/-- C1, witness for the amended sort theorem at a concrete two-entry
book. -/
theorem save_polyglot_sorted_by_hash_then_weight_witness :
    hashVal ((Book.save_polyglot smallBook).get ⟨0, by decide⟩) <
        hashVal ((Book.save_polyglot smallBook).get ⟨1, by decide⟩) ∨
      (hashVal ((Book.save_polyglot smallBook).get ⟨0, by decide⟩) =
          hashVal ((Book.save_polyglot smallBook).get ⟨1, by decide⟩) ∧
        weightVal ((Book.save_polyglot smallBook).get ⟨0, by decide⟩) ≤
          weightVal ((Book.save_polyglot smallBook).get ⟨1, by decide⟩)) :=
  save_polyglot_sorted_by_hash_then_weight smallBook 0 (by decide)

/-!
Lookup/update lemmas for the scoring steps.
-/

theorem lookupBM_scoreMove (pos : BookPosition) (uci : ℕ) (mv : Move) (i : ℕ) :
    lookupBM (scoreMove pos uci mv i) uci =
      some ⟨((lookupBM pos uci).map BookMove.weight).getD 0 + i, some mv⟩ := by
  induction pos with
  | nil => simp [scoreMove, lookupBM]
  | cons p rest ih =>
    obtain ⟨u, bm⟩ := p
    by_cases h : u = uci
    · subst h
      simp [scoreMove, lookupBM]
    · simp [scoreMove, lookupBM, h, ih]

theorem lookupBM_scoreMove_other (pos : BookPosition) (uci : ℕ) (mv : Move) (i u : ℕ)
    (h : u ≠ uci) :
    lookupBM (scoreMove pos uci mv i) u = lookupBM pos u := by
  induction pos with
  | nil => simp [scoreMove, lookupBM, Ne.symm h]
  | cons p rest ih =>
    obtain ⟨u', bm⟩ := p
    by_cases h' : u' = uci
    · subst h'
      simp [scoreMove, lookupBM, Ne.symm h]
    · simp [scoreMove, lookupBM, h', ih]

theorem lookupPos_scoreObs (b : Book) (h uci : ℕ) (mv : Move) (i : ℕ) :
    lookupPos (scoreObs b h uci mv i) h =
      some (scoreMove ((lookupPos b h).getD []) uci mv i) := by
  induction b with
  | nil => simp [scoreObs, lookupPos]
  | cons kp rest ih =>
    obtain ⟨k, pos⟩ := kp
    by_cases hk : k = h
    · subst hk
      simp [scoreObs, lookupPos]
    · simp [scoreObs, lookupPos, hk, ih]

theorem lookupPos_scoreObs_other (b : Book) (h uci : ℕ) (mv : Move) (i h' : ℕ)
    (hne : h' ≠ h) :
    lookupPos (scoreObs b h uci mv i) h' = lookupPos b h' := by
  induction b with
  | nil => simp [scoreObs, lookupPos, Ne.symm hne]
  | cons kp rest ih =>
    obtain ⟨k, pos⟩ := kp
    by_cases hk : k = h
    · subst hk
      simp [scoreObs, lookupPos, Ne.symm hne]
    · simp [scoreObs, lookupPos, hk, ih]

theorem lookupWeight_scoreObs (b : Book) (h uci : ℕ) (mv : Move) (i : ℕ) :
    lookupWeight (scoreObs b h uci mv i) h uci = lookupWeight b h uci + i := by
  unfold lookupWeight findStat
  rw [lookupPos_scoreObs]
  cases hb : lookupPos b h with
  | none => simp [hb, lookupBM_scoreMove, lookupBM]
  | some pos => simp [hb, lookupBM_scoreMove]

theorem hasStat_scoreObs_self (b : Book) (h uci : ℕ) (mv : Move) (i : ℕ) :
    hasStat (scoreObs b h uci mv i) h uci = true := by
  unfold hasStat findStat
  rw [lookupPos_scoreObs]
  simp [lookupBM_scoreMove]

theorem hasStat_scoreObs_mono (b : Book) (h uci h' uci' : ℕ) (mv : Move) (i : ℕ)
    (hs : hasStat b h uci = true) :
    hasStat (scoreObs b h' uci' mv i) h uci = true := by
  by_cases hh : h = h'
  · subst hh
    by_cases hu : uci = uci'
    · subst hu
      exact hasStat_scoreObs_self b h uci mv i
    · unfold hasStat findStat at hs ⊢
      cases hb : lookupPos b h with
      | none => simp [hb] at hs
      | some pos =>
        rw [hb] at hs
        rw [lookupPos_scoreObs, hb]
        simp only [Option.getD_some]
        simpa [lookupBM_scoreMove_other pos uci' mv i uci hu] using hs
  · unfold hasStat findStat at hs ⊢
    rw [lookupPos_scoreObs_other _ _ _ _ _ _ hh]
    exact hs

theorem hasStat_scoreGameBalanced_mono (result : GameResult) (plies : List PlyObs) :
    ∀ (b : Book) (ply h uci : ℕ), hasStat b h uci = true →
      hasStat (scoreGameBalanced result b ply plies) h uci = true := by
  induction plies with
  | nil => intro b ply h uci hs; exact hs
  | cons o rest ih =>
    intro b ply h uci hs
    by_cases hg : MAX_PLY ≤ ply
    · simpa [scoreGameBalanced, hg] using hs
    · simp only [scoreGameBalanced, if_neg hg]
      exact ih _ _ _ _ (hasStat_scoreObs_mono _ _ _ _ _ _ _ hs)

theorem scoreGameBalanced_take (result : GameResult) (plies : List PlyObs) :
    ∀ (b : Book) (ply : ℕ),
      scoreGameBalanced result b ply plies =
        scoreGameBalanced result b ply (plies.take (MAX_PLY - ply)) := by
  induction plies with
  | nil => intro b ply; rw [List.take_nil]
  | cons o rest ih =>
    intro b ply
    by_cases hg : MAX_PLY ≤ ply
    · have h0 : MAX_PLY - ply = 0 := by omega
      rw [h0, List.take_zero]
      simp [scoreGameBalanced, hg]
    · have h1 : MAX_PLY - ply = (MAX_PLY - (ply + 1)) + 1 := by omega
      rw [h1, List.take_succ_cons]
      simp only [scoreGameBalanced, if_neg hg]
      exact ih _ _

theorem hasStat_scoreGameBalanced_get (result : GameResult) (plies : List PlyObs) :
    ∀ (b : Book) (ply p : ℕ) (hp : ply + p < MAX_PLY) (hl : p < plies.length),
      hasStat (scoreGameBalanced result b ply plies)
        (plies.get ⟨p, hl⟩).hash (plies.get ⟨p, hl⟩).uci = true := by
  induction plies with
  | nil =>
    intro b ply p hp hl
    exact absurd hl (by simp)
  | cons o rest ih =>
    intro b ply p hp hl
    have hg : ¬ MAX_PLY ≤ ply := by omega
    simp only [scoreGameBalanced, if_neg hg]
    cases p with
    | zero =>
      exact hasStat_scoreGameBalanced_mono _ _ _ _ _ _
        (hasStat_scoreObs_self _ _ _ _ _)
    | succ p =>
      exact ih _ (ply + 1) p (by omega) (by simpa using Nat.lt_of_succ_lt_succ hl)

/-- Sixty-one-ply game record whose ply `i` observes fresh position
hash `i` and fresh UCI key `i`. -/
def longGame : List PlyObs := (List.range 61).map fun i => ⟨i, i, sampleMoveA, .white⟩

/-- Book reached by scoring `longGame` (white win, balanced mode). -/
def longGameBook : Book := scoreGameBalanced .whiteWin [] 0 longGame

/-- Two-ply game used to instantiate the ply-cutoff theorem. -/
def witGame : List PlyObs := [⟨1, 1, sampleMoveA, .white⟩, ⟨2, 2, sampleMoveB, .black⟩]

/-- C2, counterexample.  `build_book_from_pgn` breaks as soon as
`ply >= MAX_PLY`, so the cutoff is exclusive: in a 61-ply game with
`MAX_PLY = 60`, ply 59 is scored but ply 60 is not — the book holds no
stat at all for the (hash, move) pair observed only at ply index 60,
refuting the claimed inclusive bound. -/
theorem ply_cutoff_inclusive_counterexample :
    longGame.length = 61 ∧ MAX_PLY = 60 ∧
      hasStat longGameBook 59 59 = true ∧
      hasStat longGameBook 60 60 = false := by
  decide

/-- C2, amended.  Ingestion scores the move at every ply index `p` from
0 up to MAX_PLY as an EXCLUSIVE bound (with `MAX_PLY = 60`, plies 0..59
of a sufficiently long game contribute), and a game longer than the
cutoff is truncated at that bound — the part before the cutoff is still
scored, the game is not rejected. -/
theorem ingest_truncates_at_max_ply (b : Book) (g : GameRec) :
    ingestBalanced b g = ingestBalanced b ⟨g.variantOk, g.result, g.plies.take MAX_PLY⟩ ∧
      (g.variantOk = true →
        ∀ (p : ℕ) (hp : p < MAX_PLY) (hl : p < g.plies.length),
          hasStat (ingestBalanced b g)
            (g.plies.get ⟨p, hl⟩).hash (g.plies.get ⟨p, hl⟩).uci = true) := by
  constructor
  · unfold ingestBalanced
    cases hv : g.variantOk with
    | false => rfl
    | true =>
      simp only [if_pos]
      have := scoreGameBalanced_take g.result g.plies b 0
      simpa using this
  · intro hv p hp hl
    unfold ingestBalanced
    rw [hv, if_pos rfl]
    exact hasStat_scoreGameBalanced_get g.result g.plies b 0 p (by omega) hl

/-- C2, witness: in a two-ply game both plies are scored. -/
theorem ingest_truncates_at_max_ply_witness :
    hasStat (ingestBalanced [] ⟨true, .whiteWin, witGame⟩) 2 2 = true :=
  (ingest_truncates_at_max_ply [] ⟨true, .whiteWin, witGame⟩).2 rfl 1
    (by decide) (by decide)

/-!
Normalization lemmas.
-/

theorem normalizePos_of_sum_le_zero {pos : BookPosition} (h : posSum pos ≤ 0) :
    normalizePos pos = pos := by
  unfold normalizePos
  simp [h]

theorem mem_normalizePos_of_sum_pos {pos : BookPosition} (hs : 0 < posSum pos)
    {uci : ℕ} {bm : BookMove} (hm : (uci, bm) ∈ pos) :
    (uci, ⟨max 1 (pyFloorMul bm.weight (posSum pos)), bm.move⟩) ∈ normalizePos pos := by
  unfold normalizePos
  rw [if_neg (by omega)]
  exact List.mem_map_of_mem _ hm

theorem weights_zero_of_sum_le_zero {pos : BookPosition} (h : posSum pos ≤ 0) :
    ∀ p ∈ pos, p.2.weight = 0 := by
  intro p hp
  have hz : (pos.map fun p => p.2.weight).sum = 0 := by
    have : posSum pos = (pos.map fun p => p.2.weight).sum := rfl
    omega
  exact List.sum_eq_zero_iff.mp hz _ (List.mem_map_of_mem _ hp)

/-- Position with accumulated scores 11 and 4 (sum 15), the smallest
score sum at which the float computation of `normalize` differs from
the exact rational floor. -/
def skewPos : BookPosition := [(0, ⟨11, some sampleMoveA⟩), (1, ⟨4, some sampleMoveB⟩)]

/-- C3, counterexample.  At score 11 with position sum `S = 15` the code
computes `int(11 / 15 * 2520)` in binary64 floats and gets 1847, while
the exact rational value `11 * 2520 / 15 = 1848` is an integer, so the
claimed exact floor `max(1, floor(11 * 2520 / 15)) = 1848` differs from
the weight the program stores. -/
theorem normalize_exact_rational_counterexample :
    posSum skewPos = 15 ∧
      lookupBM (normalizePos skewPos) 0 = some ⟨1847, some sampleMoveA⟩ ∧
      lookupWeight (Book.normalize [(2, skewPos)]) 2 0 = 1847 ∧
      max 1 (11 * MAX_BOOK_WEIGHT / 15) = 1848 := by
  decide

/-- C3, amended.  Normalization is an exact per-position operation: for
a position whose score sum `S` satisfies `S ≤ 0` every move is left
completely unchanged; for `S > 0` every move's score is rewritten to
exactly `max(1, int(w / S * MAX_BOOK_WEIGHT))` with
`MAX_BOOK_WEIGHT = 2520`, where the inner expression is evaluated in
IEEE-754 binary64 arithmetic (correctly rounded division and
multiplication, then truncation toward zero, the meaning of the Python
source `max(1, int(bm.weight / s * MAX_BOOK_WEIGHT))`); this float
value can fall one below the floor of the exact rational
`w * 2520 / S`. -/
theorem normalize_rewrites_scores (b : Book) (k : ℕ) (pos : BookPosition)
    (uci : ℕ) (bm : BookMove) (hb : (k, pos) ∈ b) (hm : (uci, bm) ∈ pos) :
    (k, normalizePos pos) ∈ Book.normalize b ∧
      (posSum pos ≤ 0 → normalizePos pos = pos) ∧
      (0 < posSum pos →
        (uci, ⟨max 1 (pyFloorMul bm.weight (posSum pos)), bm.move⟩) ∈ normalizePos pos) :=
  ⟨List.mem_map_of_mem _ hb,
    fun h => normalizePos_of_sum_le_zero h,
    fun h => mem_normalizePos_of_sum_pos h hm⟩

/-- C3, witness at the concrete skew position inside a one-position
book. -/
theorem normalize_rewrites_scores_witness :
    (2, normalizePos skewPos) ∈ Book.normalize [(2, skewPos)] ∧
      (posSum skewPos ≤ 0 → normalizePos skewPos = skewPos) ∧
      (0 < posSum skewPos →
        (0, ⟨max 1 (pyFloorMul 11 (posSum skewPos)), some sampleMoveA⟩) ∈
          normalizePos skewPos) :=
  normalize_rewrites_scores [(2, skewPos)] 2 skewPos 0 ⟨11, some sampleMoveA⟩
    (by decide) (by decide)

/-- Book reached by ingesting a game with an unknown result (`*`): the
observed move is recorded with accumulated score 0, so its position is
degenerate at normalization time. -/
def degenBook : Book := scoreGameBalanced .unknown [] 0 [⟨3, 0, sampleMoveA, .white⟩]

/-- Pipeline output on `degenBook` with injected jitter delta 1 (inside
the program's `random.randint(0, 3)` range). -/
def degenOut : List (List ℕ) :=
  Book.save_polyglot (jitter (fun _ _ => 1) degenBook.normalize)

/-- C4, counterexample.  The jitter loop runs over every move of every
position, including degenerate ones, so a move whose position had score
sum 0 at normalization is lifted to weight 1 by a jitter delta of 1 and
IS emitted: the output holds one entry, carrying the degenerate
position's hash 3, refuting "no move of such a degenerate position ever
appears as an entry in the output file". -/
theorem degenerate_pruning_counterexample :
    posSum ((lookupPos degenBook 3).getD []) = 0 ∧
      degenOut.length = 1 ∧
      hashVal (degenOut.getD 0 []) = 3 ∧
      weightVal (degenOut.getD 0 []) = 1 := by
  decide

/-- C4, amended.  For a position whose score sum is `≤ 0` at
normalization time, normalization leaves the position untouched and all
its moves have weight zero; the moves are pruned at encoding exactly
when their weight is still zero after jitter — with all jitter deltas
zero the position contributes no entries, while a nonzero delta (the
program draws from `[0, 3]`) lifts such a move into the output. -/
theorem degenerate_position_entries (k : ℕ) (pos : BookPosition) (δ : ℕ → ℕ → ℕ)
    (hs : posSum pos ≤ 0) :
    normalizePos pos = pos ∧
      (∀ p ∈ pos, p.2.weight = 0) ∧
      ((∀ u, δ k u = 0) → posEntries k (jitterPos δ k (normalizePos pos)) = []) := by
  refine ⟨normalizePos_of_sum_le_zero hs, weights_zero_of_sum_le_zero hs, fun hδ => ?_⟩
  rw [normalizePos_of_sum_le_zero hs]
  unfold posEntries
  rw [List.filterMap_eq_nil_iff]
  intro a ha
  rcases List.mem_map.mp ha with ⟨p, hp, rfl⟩
  have hw : p.2.weight = 0 := weights_zero_of_sum_le_zero hs p hp
  simp [hδ p.1, hw]

/-- C4, witness at a concrete one-move degenerate position with zero
jitter. -/
theorem degenerate_position_entries_witness :
    posEntries 3 (jitterPos (fun _ _ => 0) 3
      (normalizePos [(0, ⟨0, some sampleMoveA⟩)])) = [] :=
  (degenerate_position_entries 3 [(0, ⟨0, some sampleMoveA⟩)] (fun _ _ => 0)
    (by decide)).2.2 (fun _ => rfl)

/-- C5.  Every entry written to the output has a weight field `w` with
`0 < w ≤ MAX_BOOK_WEIGHT = 2520`: the encoder drops every stat whose
final weight is `≤ 0` and clamps the written weight with
`min(MAX_BOOK_WEIGHT, bm.weight)`, so an entry with weight zero is
never emitted. -/
theorem entry_weight_bounds (b : Book) (e : List ℕ) (he : e ∈ Book.save_polyglot b) :
    0 < weightVal e ∧ weightVal e ≤ MAX_BOOK_WEIGHT := by
  obtain ⟨k, m, w, hw, rfl⟩ := mem_allEntries (mem_save_polyglot.mp he)
  rw [weightVal_entryBytes]
  have hmax : MAX_BOOK_WEIGHT = 2520 := rfl
  omega

/-- C5, witness at a concrete entry of a two-move book. -/
theorem entry_weight_bounds_witness :
    0 < weightVal (entryBytes 1 sampleMoveA 5) ∧
      weightVal (entryBytes 1 sampleMoveA 5) ≤ MAX_BOOK_WEIGHT :=
  entry_weight_bounds smallBook (entryBytes 1 sampleMoveA 5) (by decide)

/-- One-move white-win game book of the spec's single-game scenario:
position hash 9, move key 0, white to move. -/
def scenarioBook : Book := scoreGameBalanced .whiteWin [] 0 [⟨9, 0, sampleMoveA, .white⟩]

/-- C6.  Balanced-mode scoring: at ply `p` a white win adds
`(6 if turn == white else 1) * decay`, a black win symmetrically, a draw
adds `2 * decay`, with `decay = max(1, (MAX_PLY - p) // 5)`; and the
spec's single-game scenario holds end to end: one single-move game won
by white at ply 0 gives `decay = 12`, increment `6 * 12 = 72`,
normalized weight 2520, and (with jitter delta 0) exactly one 16-byte
entry of weight 2520. -/
theorem balanced_increment_and_scenario :
    (∀ (b : Book) (h uci : ℕ) (m : Move) (turn : Color) (p : ℕ),
        lookupWeight (scoreObs b h uci m (balancedIncrement .whiteWin turn (decay p))) h uci =
          lookupWeight b h uci + (if turn = .white then 6 else 1) * max 1 ((MAX_PLY - p) / 5)) ∧
      (∀ (b : Book) (h uci : ℕ) (m : Move) (turn : Color) (p : ℕ),
        lookupWeight (scoreObs b h uci m (balancedIncrement .blackWin turn (decay p))) h uci =
          lookupWeight b h uci + (if turn = .black then 6 else 1) * max 1 ((MAX_PLY - p) / 5)) ∧
      (∀ (b : Book) (h uci : ℕ) (m : Move) (turn : Color) (p : ℕ),
        lookupWeight (scoreObs b h uci m (balancedIncrement .draw turn (decay p))) h uci =
          lookupWeight b h uci + 2 * max 1 ((MAX_PLY - p) / 5)) ∧
      (decay 0 = 12 ∧
        balancedIncrement .whiteWin .white (decay 0) = 72 ∧
        lookupWeight scenarioBook 9 0 = 72 ∧
        Book.save_polyglot (jitter (fun _ _ => 0) scenarioBook.normalize) =
          [entryBytes 9 sampleMoveA 2520] ∧
        weightVal (entryBytes 9 sampleMoveA 2520) = 2520 ∧
        (entryBytes 9 sampleMoveA 2520).length = 16) := by
  refine ⟨?_, ?_, ?_, by decide⟩
  all_goals
    intro b h uci m turn p
    rw [lookupWeight_scoreObs]
    rfl

/-- Book built by the win-only scorer of `weakest-book.py` from a game
with result `0-1` (Black won) and injected `random.randint(4, 6)` value
4: ply 0 is a White move at hash 10, ply 1 a Black move at hash 11. -/
def winOnlyBook : Book :=
  scoreGameWinOnly .blackWin (fun _ => 4) [] 0
    [⟨10, 0, sampleMoveA, .white⟩, ⟨11, 1, sampleMoveB, .black⟩]

/-- C7.  The win-only scorer tests only `board.turn` against the winning
side, never which colour the bot of interest played: in a `0-1` game it
gives the Black (winner's) move at ply 1 the nonzero increment
`4 * decay 1 = 44`, while the White move of ply 0 stays a recorded
zero-score candidate.  When the bot of interest played White and lost,
these incremented moves belong to its opponent, contradicting the
source comment "Only count winning moves of MinOpponentMoves". -/
theorem win_only_scores_any_winner :
    lookupWeight winOnlyBook 11 1 = 4 * decay 1 ∧
      decay 1 = 11 ∧
      0 < lookupWeight winOnlyBook 11 1 ∧
      lookupWeight winOnlyBook 10 0 = 0 ∧
      hasStat winOnlyBook 10 0 = true := by
  decide

/-- Promotion-piece code of the move field: python-chess piece types
`KNIGHT = 2`, `BISHOP = 3`, `ROOK = 4`, `QUEEN = 5` encode as
`piece - 1`, i.e. 1..4, and no promotion encodes as 0. -/
def promoCode : Option ℕ → ℕ
  | none => 0
  | some p => p - 1

/-- C8.  Every 16-byte entry encodes its move in bytes 8-9 as a
big-endian 16-bit value with bits 0-5 the to-square, bits 6-11 the
from-square, bits 12-14 the promotion code (0 none, 1 knight, 2 bishop,
3 rook, 4 queen), bit 15 zero (the value is below 2^15), and its
reserved learn field in bytes 12-15 is always zero. -/
theorem move_field_encoding (h w : ℕ) (m : Move)
    (hto : m.to_square < 64) (hfrom : m.from_square < 64)
    (hpromo : m.promotion = none ∨ ∃ p, m.promotion = some p ∧ 2 ≤ p ∧ p ≤ 5) :
    moveVal (entryBytes h m w) = moveInt m ∧
      moveInt m % 64 = m.to_square ∧
      moveInt m / 64 % 64 = m.from_square ∧
      moveInt m / 4096 % 8 = promoCode m.promotion ∧
      moveInt m < 32768 ∧
      (entryBytes h m w).drop 12 = [0, 0, 0, 0] ∧
      learnVal (entryBytes h m w) = 0 := by
  have hpc : promoCode m.promotion ≤ 4 := by
    rcases hpromo with hp | ⟨p, hp, hp2, hp5⟩
    · simp [promoCode, hp]
    · simp only [promoCode, hp]
      omega
  have hint : moveInt m = m.to_square + m.from_square * 64 + promoCode m.promotion * 4096 := by
    cases hpr : m.promotion with
    | none =>
      simp [moveInt, promoCode, hpr, Nat.shiftLeft_eq]
    | some p =>
      simp [moveInt, promoCode, hpr, Nat.shiftLeft_eq]
  have hlt : moveInt m < 32768 := by rw [hint]; omega
  refine ⟨moveVal_entryBytes h m w (by omega), ?_, ?_, ?_, hlt,
    entry_learnSlice h m w, learnVal_entryBytes h m w⟩
  · rw [hint]; omega
  · rw [hint]; omega
  · rw [hint]; omega

/-- C8, witness at a concrete queen promotion from square 12 to
square 4. -/
theorem move_field_encoding_witness :
    moveVal (entryBytes 1 ⟨12, 4, some 5⟩ 7) = moveInt ⟨12, 4, some 5⟩ ∧
      moveInt ⟨12, 4, some 5⟩ % 64 = 4 ∧
      moveInt ⟨12, 4, some 5⟩ / 64 % 64 = 12 ∧
      moveInt ⟨12, 4, some 5⟩ / 4096 % 8 = promoCode (some 5) ∧
      moveInt ⟨12, 4, some 5⟩ < 32768 ∧
      (entryBytes 1 ⟨12, 4, some 5⟩ 7).drop 12 = [0, 0, 0, 0] ∧
      learnVal (entryBytes 1 ⟨12, 4, some 5⟩ 7) = 0 :=
  move_field_encoding 1 7 ⟨12, 4, some 5⟩ (by decide) (by decide)
    (Or.inr ⟨5, rfl, by decide, by decide⟩)

/-!
Retention: moves surviving normalization, jitter and the encoder filter.
-/

/-- Every stat of the book carries a decoded move (`bm.move` was
assigned; in the scripts this happens at every observation, directly
after `pos.get_move(move.uci())`). -/
def allMovesSet (b : Book) : Prop :=
  ∀ kp ∈ b, ∀ p ∈ kp.2, p.2.move.isSome = true

theorem movesSet_scoreMove {pos : BookPosition}
    (h : ∀ p ∈ pos, p.2.move.isSome = true) (uci : ℕ) (mv : Move) (i : ℕ) :
    ∀ p ∈ scoreMove pos uci mv i, p.2.move.isSome = true := by
  induction pos with
  | nil =>
    intro p hp
    simp only [scoreMove, List.mem_singleton] at hp
    rw [hp]
    rfl
  | cons q rest ih =>
    obtain ⟨u, bm⟩ := q
    intro p hp
    by_cases hu : u = uci
    · subst hu
      simp [scoreMove] at hp
      rcases hp with heq | hp
      · rw [heq]
        rfl
      · exact h p (List.mem_cons_of_mem _ hp)
    · simp [scoreMove, hu] at hp
      rcases hp with heq | hp
      · rw [heq]
        exact h (u, bm) (List.mem_cons_self _ _)
      · exact ih (fun q hq => h q (List.mem_cons_of_mem _ hq)) p hp

theorem movesSet_scoreObs {b : Book} (h : allMovesSet b) (hk uci : ℕ) (mv : Move) (i : ℕ) :
    allMovesSet (scoreObs b hk uci mv i) := by
  induction b with
  | nil =>
    intro kp hkp p hp
    simp only [scoreObs, List.mem_singleton] at hkp
    subst hkp
    exact movesSet_scoreMove (by simp) uci mv i p hp
  | cons q rest ih =>
    obtain ⟨k, pos⟩ := q
    intro kp hkp p hp
    by_cases hkk : k = hk
    · subst hkk
      simp [scoreObs] at hkp
      rcases hkp with heq | hkp
      · rw [heq] at hp
        exact movesSet_scoreMove (fun q hq => h (k, pos) (List.mem_cons_self _ _) q hq)
          uci mv i p hp
      · exact h kp (List.mem_cons_of_mem _ hkp) p hp
    · simp [scoreObs, hkk] at hkp
      rcases hkp with heq | hkp
      · rw [heq] at hp
        exact h (k, pos) (List.mem_cons_self _ _) p hp
      · exact ih (fun q hq => h q (List.mem_cons_of_mem _ hq)) kp hkp p hp

theorem movesSet_scoreGameBalanced (result : GameResult) (plies : List PlyObs) :
    ∀ (b : Book) (ply : ℕ), allMovesSet b →
      allMovesSet (scoreGameBalanced result b ply plies) := by
  induction plies with
  | nil => intro b ply h; exact h
  | cons o rest ih =>
    intro b ply h
    by_cases hg : MAX_PLY ≤ ply
    · simpa [scoreGameBalanced, hg] using h
    · simp only [scoreGameBalanced, if_neg hg]
      exact ih _ _ (movesSet_scoreObs h _ _ _ _)

theorem movesSet_buildBookBalanced (games : List GameRec) :
    ∀ b : Book, allMovesSet b → allMovesSet (games.foldl ingestBalanced b) := by
  induction games with
  | nil => intro b h; exact h
  | cons g rest ih =>
    intro b h
    refine ih _ ?_
    unfold ingestBalanced
    cases g.variantOk with
    | false => exact h
    | true => simpa using movesSet_scoreGameBalanced g.result g.plies b 0 h

/-- Retention core: a recorded move of a position with positive score
sum survives normalization (weight at least 1), jitter (nonnegative
delta, capped at `MAX_BOOK_WEIGHT ≥ 1`) and the encoder's
nonzero-weight filter, so an entry with its hash bytes and its move
bytes is in the output. -/
theorem retained_entry {b : Book} {k : ℕ} {pos : BookPosition} {uci : ℕ} {bm : BookMove}
    {m : Move} (δ : ℕ → ℕ → ℕ)
    (hb : (k, pos) ∈ b) (hm : (uci, bm) ∈ pos) (hmv : bm.move = some m)
    (hs : 0 < posSum pos) :
    ∃ e ∈ Book.save_polyglot (jitter δ b.normalize),
      e.take 8 = beBytes 8 k ∧ (e.drop 8).take 2 = beBytes 2 (moveInt m) := by
  have h1 : (uci, (⟨max 1 (pyFloorMul bm.weight (posSum pos)), bm.move⟩ : BookMove)) ∈
      normalizePos pos := mem_normalizePos_of_sum_pos hs hm
  have h2 : (k, normalizePos pos) ∈ Book.normalize b := List.mem_map_of_mem _ hb
  have h3 : (k, jitterPos δ k (normalizePos pos)) ∈ jitter δ b.normalize :=
    List.mem_map_of_mem _ h2
  set w1 := max 1 (pyFloorMul bm.weight (posSum pos)) with hw1
  set w2 := min MAX_BOOK_WEIGHT (w1 + δ k uci) with hw2
  have h4 : (uci, (⟨w2, bm.move⟩ : BookMove)) ∈ jitterPos δ k (normalizePos pos) :=
    List.mem_map_of_mem _ h1
  have hw2pos : 0 < w2 := by
    have hle : 1 ≤ w1 := le_max_left _ _
    have hmax : MAX_BOOK_WEIGHT = 2520 := rfl
    omega
  have h5 : entryBytes k m w2 ∈ posEntries k (jitterPos δ k (normalizePos pos)) := by
    apply List.mem_filterMap.mpr
    refine ⟨(uci, ⟨w2, bm.move⟩), h4, ?_⟩
    rw [hmv]
    simp only [if_neg (by omega : ¬ w2 ≤ 0)]
  have h6 : entryBytes k m w2 ∈ allEntries (jitter δ b.normalize) :=
    List.mem_flatten.mpr ⟨_, List.mem_map_of_mem _ h3, h5⟩
  exact ⟨entryBytes k m w2, mem_save_polyglot.mpr h6, entry_take8 k m w2,
    entry_moveSlice k m w2⟩

/-- C9.  Monotonic retention: every move key observed by balanced-mode
ingestion that holds accumulated score `> 0` before normalization
appears in the final encoded output for its position, for every jitter
delta assignment: its stored move exists, and the output contains an
entry carrying that position's hash bytes and that move's move bytes. -/
theorem positive_scores_retained (games : List GameRec) (δ : ℕ → ℕ → ℕ)
    (k : ℕ) (pos : BookPosition) (uci : ℕ) (bm : BookMove)
    (hb : (k, pos) ∈ buildBookBalanced games) (hm : (uci, bm) ∈ pos)
    (hw : 0 < bm.weight) :
    ∃ m, bm.move = some m ∧
      ∃ e ∈ Book.save_polyglot (jitter δ (buildBookBalanced games).normalize),
        e.take 8 = beBytes 8 k ∧ (e.drop 8).take 2 = beBytes 2 (moveInt m) := by
  have hset : bm.move.isSome = true :=
    movesSet_buildBookBalanced games [] (by intro kp hkp; cases hkp) (k, pos) hb (uci, bm) hm
  obtain ⟨m, hmv⟩ := Option.isSome_iff_exists.mp hset
  refine ⟨m, hmv, ?_⟩
  have hs : 0 < posSum pos := by
    have hle : bm.weight ≤ posSum pos :=
      List.le_sum_of_mem (List.mem_map_of_mem (fun p => p.2.weight) hm)
    omega
  exact retained_entry δ hb hm hmv hs

/-- One-game corpus instantiating monotonic retention. -/
def retGames : List GameRec := [⟨true, .whiteWin, [⟨9, 0, sampleMoveA, .white⟩]⟩]

/-- C9, witness at the one-game corpus: the single observed move has
score 72 > 0 and survives to the output. -/
theorem positive_scores_retained_witness :
    ∃ m, (⟨72, some sampleMoveA⟩ : BookMove).move = some m ∧
      ∃ e ∈ Book.save_polyglot (jitter (fun _ _ => 0) (buildBookBalanced retGames).normalize),
        e.take 8 = beBytes 8 9 ∧ (e.drop 8).take 2 = beBytes 2 (moveInt m) :=
  positive_scores_retained retGames (fun _ _ => 0) 9 [(0, ⟨72, some sampleMoveA⟩)]
    0 ⟨72, some sampleMoveA⟩ (by decide) (by decide) (by decide)

/-- C10.  In a position whose score sum is positive at normalization,
every recorded move — a zero accumulated score included — is assigned
weight at least 1 by the `max(1, ...)` of `normalize` and therefore
appears as an entry in the final output; in win-only mode this keeps
unscored (losing-side) moves whenever they share a position with a
scored move. -/
theorem zero_score_moves_retained (b : Book) (δ : ℕ → ℕ → ℕ)
    (k : ℕ) (pos : BookPosition) (uci : ℕ) (bm : BookMove) (m : Move)
    (hb : (k, pos) ∈ b) (hm : (uci, bm) ∈ pos) (hmv : bm.move = some m)
    (hs : 0 < posSum pos) :
    (uci, (⟨max 1 (pyFloorMul bm.weight (posSum pos)), bm.move⟩ : BookMove)) ∈
        normalizePos pos ∧
      1 ≤ max 1 (pyFloorMul bm.weight (posSum pos)) ∧
      ∃ e ∈ Book.save_polyglot (jitter δ b.normalize),
        e.take 8 = beBytes 8 k ∧ (e.drop 8).take 2 = beBytes 2 (moveInt m) :=
  ⟨mem_normalizePos_of_sum_pos hs hm, le_max_left _ _, retained_entry δ hb hm hmv hs⟩

/-- Win-only-shaped book: at hash 7 the White (losing-side) move key 0
has accumulated score 0 while move key 1 has score 44. -/
def sharedPosBook : Book :=
  [(7, [(0, ⟨0, some sampleMoveA⟩), (1, ⟨44, some sampleMoveB⟩)])]

/-- C10, witness: the zero-score move of `sharedPosBook` is retained. -/
theorem zero_score_moves_retained_witness :
    (0, (⟨max 1 (pyFloorMul 0 (posSum [(0, ⟨0, some sampleMoveA⟩),
          (1, ⟨44, some sampleMoveB⟩)])), some sampleMoveA⟩ : BookMove)) ∈
        normalizePos [(0, ⟨0, some sampleMoveA⟩), (1, ⟨44, some sampleMoveB⟩)] ∧
      1 ≤ max 1 (pyFloorMul 0 (posSum [(0, ⟨0, some sampleMoveA⟩),
          (1, ⟨44, some sampleMoveB⟩)])) ∧
      ∃ e ∈ Book.save_polyglot (jitter (fun _ _ => 0) sharedPosBook.normalize),
        e.take 8 = beBytes 8 7 ∧ (e.drop 8).take 2 = beBytes 2 (moveInt sampleMoveA) :=
  zero_score_moves_retained sharedPosBook (fun _ _ => 0) 7
    [(0, ⟨0, some sampleMoveA⟩), (1, ⟨44, some sampleMoveB⟩)]
    0 ⟨0, some sampleMoveA⟩ sampleMoveA (by decide) (by decide) rfl (by decide)

end WeakBot
